import Mathlib

/-!
Verification of the risk-analytics backend (src/project_alpaca/backend.py).

Python floats are modelled exactly: the type FV carries a finite value
(an exact rational or real number), positive infinity, negative infinity,
or NaN, and arithmetic on FV follows IEEE-754 semantics on the special
values while finite arithmetic is exact.  The pandas reductions used by
the source (mean, var, cov, all with ddof = 1 and skipna = true) are
modelled by fvMean, fvVar and fvCov; pandas fills NaN for a reduction
whose effective sample count is too small for its ddof, which the
definitions below reproduce (an empty filtered sample yields NaN, and a
single-element sample yields NaN through the 0/0 division rule).

Dates are modelled as natural numbers; a price series (one DataFrame
Close column) is a list of (date, close) pairs with, as produced by the
data provider, strictly increasing dates.
-/

namespace ProjectAlpaca

/-- A Python float value: finite (exact), one of the two infinities, or NaN. -/
inductive FV (α : Type) where
  | fin (val : α)
  | inf
  | ninf
  | nan
deriving DecidableEq

variable {α : Type} [LinearOrderedField α]

def FV.isNan : FV α → Bool
  | .nan => true
  | _ => false

def fvNeg : FV α → FV α
  | .fin a => .fin (-a)
  | .inf => .ninf
  | .ninf => .inf
  | .nan => .nan

def fvAdd : FV α → FV α → FV α
  | .nan, _ => .nan
  | _, .nan => .nan
  | .fin a, .fin b => .fin (a + b)
  | .fin _, .inf => .inf
  | .inf, .fin _ => .inf
  | .fin _, .ninf => .ninf
  | .ninf, .fin _ => .ninf
  | .inf, .inf => .inf
  | .ninf, .ninf => .ninf
  | .inf, .ninf => .nan
  | .ninf, .inf => .nan

def fvSub (x y : FV α) : FV α := fvAdd x (fvNeg y)

def fvMul : FV α → FV α → FV α
  | .nan, _ => .nan
  | _, .nan => .nan
  | .fin a, .fin b => .fin (a * b)
  | .fin a, .inf => if 0 < a then .inf else if a < 0 then .ninf else .nan
  | .fin a, .ninf => if 0 < a then .ninf else if a < 0 then .inf else .nan
  | .inf, .fin b => if 0 < b then .inf else if b < 0 then .ninf else .nan
  | .ninf, .fin b => if 0 < b then .ninf else if b < 0 then .inf else .nan
  | .inf, .inf => .inf
  | .inf, .ninf => .ninf
  | .ninf, .inf => .ninf
  | .ninf, .ninf => .inf

/-- IEEE division; a finite zero has positive sign (the only case the
    pipeline produces). -/
def fvDiv : FV α → FV α → FV α
  | .nan, _ => .nan
  | _, .nan => .nan
  | .fin a, .fin b =>
      if b = 0 then (if 0 < a then .inf else if a < 0 then .ninf else .nan)
      else .fin (a / b)
  | .fin _, .inf => .fin 0
  | .fin _, .ninf => .fin 0
  | .inf, .fin b => if 0 ≤ b then .inf else .ninf
  | .ninf, .fin b => if 0 ≤ b then .ninf else .inf
  | .inf, .inf => .nan
  | .inf, .ninf => .nan
  | .ninf, .inf => .nan
  | .ninf, .ninf => .nan

/-- The Python comparison x != 0 on a float: true for NaN and the infinities. -/
def fvNe0 : FV α → Bool
  | .fin v => decide (¬ v = 0)
  | _ => true

/-- The Python comparison x >= 0 on a float: false for NaN. -/
def fvNonneg : FV α → Prop
  | .fin v => 0 ≤ v
  | .inf => True
  | .ninf => False
  | .nan => False

def fvSum (l : List (FV α)) : FV α := l.foldr fvAdd (.fin 0)

/-- pandas Series.mean (skipna): NaN entries are dropped; the mean of an
    empty sample is NaN. -/
def fvMean (l : List (FV α)) : FV α :=
  let v := l.filter (fun x => !(FV.isNan x))
  if v.length = 0 then .nan
  else fvDiv (fvSum v) (.fin (v.length : α))

/-- pandas Series.var (ddof = 1, skipna): NaN entries are dropped; an empty
    sample yields NaN, and a one-element sample yields NaN through the
    0/0 division. -/
def fvVar (l : List (FV α)) : FV α :=
  let v := l.filter (fun x => !(FV.isNan x))
  if v.length = 0 then .nan
  else
    let m := fvDiv (fvSum v) (.fin (v.length : α))
    fvDiv (fvSum (v.map (fun x => fvMul (fvSub x m) (fvSub x m))))
      (.fin ((v.length : α) - 1))

/-- pandas Series.cov (ddof = 1): pairs with a NaN member are dropped; an
    empty sample yields NaN, and a one-element sample yields NaN through
    the 0/0 division. -/
def fvCov (l : List (FV α × FV α)) : FV α :=
  let v := l.filter (fun p => !(FV.isNan p.1) && !(FV.isNan p.2))
  if v.length = 0 then .nan
  else
    let mx := fvDiv (fvSum (v.map Prod.fst)) (.fin (v.length : α))
    let my := fvDiv (fvSum (v.map Prod.snd)) (.fin (v.length : α))
    fvDiv (fvSum (v.map (fun p => fvMul (fvSub p.1 mx) (fvSub p.2 my))))
      (.fin ((v.length : α) - 1))

/-- numpy sqrt lifted to float values: sqrt of a negative number or of
    negative infinity is NaN. -/
noncomputable def fvSqrt : FV ℚ → FV ℝ
  | .fin q => if q < 0 then .nan else .fin (Real.sqrt (q : ℝ))
  | .inf => .inf
  | .ninf => .nan
  | .nan => .nan

/-- Exact embedding of rational float values into real float values. -/
noncomputable def toR : FV ℚ → FV ℝ
  | .fin q => .fin (q : ℝ)
  | .inf => .inf
  | .ninf => .ninf
  | .nan => .nan

/-- One entry of Close.pct_change(): (cur - prev) / prev in float
    arithmetic.  A zero previous close gives 0/0 = NaN when the current
    close is also zero, and a signed infinity otherwise. -/
def pctVal (prev cur : ℚ) : FV ℚ :=
  if prev = 0 then (if cur = 0 then .nan else if 0 < cur then .inf else .ninf)
  else .fin ((cur - prev) / prev)

def pctList : ℚ → List (Nat × ℚ) → List (Nat × FV ℚ)
  | _, [] => []
  | prev, (d, p) :: rest =>
      if (pctVal prev p).isNan then pctList p rest
      else (d, pctVal prev p) :: pctList p rest

/-- Close.pct_change().dropna(): the first bar has no prior reference (its
    NaN entry is dropped), and each later bar contributes its day-over-day
    change unless that change is NaN. -/
def pct_change_dropna : List (Nat × ℚ) → List (Nat × FV ℚ)
  | [] => []
  | (_, p) :: rest => pctList p rest

def lookupDate (d : Nat) : List (Nat × FV ℚ) → Option (FV ℚ)
  | [] => none
  | (e, v) :: rest => if e = d then some v else lookupDate d rest

/-- pd.concat([s, m], axis = 1).dropna() on date-indexed columns with
    strictly increasing dates: rows keep the order of s and survive only
    when the date is present in both columns and neither value is NaN. -/
def innerJoin (s m : List (Nat × FV ℚ)) : List (Nat × FV ℚ × FV ℚ) :=
  s.filterMap (fun p =>
    match lookupDate p.1 m with
    | some w => if p.2.isNan || w.isNan then none else some (p.1, p.2, w)
    | none => none)

def stockCol (data : List (Nat × FV ℚ × FV ℚ)) : List (FV ℚ) :=
  data.map (fun r => r.2.1)

def marketCol (data : List (Nat × FV ℚ × FV ℚ)) : List (FV ℚ) :=
  data.map (fun r => r.2.2)

def pairsOf (data : List (Nat × FV ℚ × FV ℚ)) : List (FV ℚ × FV ℚ) :=
  data.map (fun r => (r.2.1, r.2.2))

def datesOf {β : Type} (l : List (Nat × β)) : List Nat := l.map Prod.fst

/-- beta = covariance / market_variance if market_variance != 0 else 1.0 -/
def betaOf (data : List (Nat × FV ℚ × FV ℚ)) : FV ℚ :=
  let covariance := fvCov (pairsOf data)
  let market_variance := fvVar (marketCol data)
  if fvNe0 market_variance then fvDiv covariance market_variance else .fin 1

/-- volatility = data.Stock.std() * np.sqrt(252) * 100 -/
noncomputable def volatilityOf (data : List (Nat × FV ℚ × FV ℚ)) : FV ℝ :=
  fvMul (fvMul (fvSqrt (fvVar (stockCol data))) (.fin (Real.sqrt 252)))
    (.fin 100)

def risk_free_rate : ℚ := 1 / 25

/-- excess_return = (data.Stock.mean() * 252) - risk_free_rate -/
def excessOf (data : List (Nat × FV ℚ × FV ℚ)) : FV ℚ :=
  fvSub (fvMul (fvMean (stockCol data)) (.fin 252)) (.fin risk_free_rate)

/-- sharpe = excess_return / (volatility / 100) if volatility != 0 else 0 -/
noncomputable def sharpeOf (data : List (Nat × FV ℚ × FV ℚ)) : FV ℝ :=
  if fvNe0 (volatilityOf data) then
    fvDiv (toR (excessOf data)) (fvDiv (volatilityOf data) (.fin 100))
  else .fin 0

structure RiskMetrics where
  beta : FV ℚ
  volatility : FV ℝ
  sharpe : FV ℝ

/-- Asset.calculate_risk_metrics: None when either fetched price series is
    empty; otherwise the beta / volatility / sharpe record computed from
    the inner join of the two daily-return series. -/
noncomputable def calculate_risk_metrics (stock_data market_data : List (Nat × ℚ)) :
    Option RiskMetrics :=
  if stock_data.isEmpty || market_data.isEmpty then none
  else
    let stock_returns := pct_change_dropna stock_data
    let market_returns := pct_change_dropna market_data
    let data := innerJoin stock_returns market_returns
    some ⟨betaOf data, volatilityOf data, sharpeOf data⟩

/-! News normalization (Asset.get_news).  Raw records are dynamic Python
    values: null (None), strings, or string-keyed dictionaries. -/

inductive JVal where
  | null
  | str (s : String)
  | obj (fields : List (String × JVal))

/-- Python truthiness of the values a news record can hold: None, the empty
    string and the empty dict are falsy. -/
def truthy : JVal → Bool
  | .null => false
  | .str s => !s.isEmpty
  | .obj fs => !fs.isEmpty

def jLookup (k : String) : List (String × JVal) → Option JVal
  | [] => none
  | (key, v) :: rest => if key = k then some v else jLookup k rest

/-- Python value.get(key, default): defined on dictionaries only, and the
    default applies only when the key is absent (a key present with value
    None yields None).  On any non-dict receiver, .get raises
    AttributeError. -/
def pyGet (v : JVal) (k : String) (dflt : JVal) : Except String JVal :=
  match v with
  | .obj fs => .ok ((jLookup k fs).getD dflt)
  | _ => .error "AttributeError"

structure NewsItem where
  title : JVal
  link : JVal
  publisher : JVal

/-- The body of the get_news loop for one raw record, with Python
    evaluation order: content, then url_data (the or-chain), then the
    article fields title, link, publisher.  Any AttributeError raised on
    the way propagates.  (The or-chain is evaluated without short
    circuiting here; that is observationally identical because once the
    first .get on content has succeeded, content is a dict and the second
    cannot raise.) -/
def normalizeNews (item : JVal) : Except String NewsItem :=
  match pyGet item "content" (JVal.obj []) with
  | .error e => .error e
  | .ok content =>
    match pyGet content "clickThroughUrl" JVal.null with
    | .error e => .error e
    | .ok ctu =>
      match pyGet content "canonicalUrl" JVal.null with
      | .error e => .error e
      | .ok canu =>
        let url_data := if truthy ctu then ctu else canu
        match pyGet content "title" (JVal.str "No Title") with
        | .error e => .error e
        | .ok title =>
          match (if truthy url_data then pyGet url_data "url" (JVal.str "#")
                 else .ok (JVal.str "#")) with
          | .error e => .error e
          | .ok link =>
            match pyGet content "provider" (JVal.obj []) with
            | .error e => .error e
            | .ok prov =>
              match pyGet prov "displayName" (JVal.str "Unknown") with
              | .error e => .error e
              | .ok publisher => .ok ⟨title, link, publisher⟩

/-- The for-loop of get_news: records are normalized in order and appended;
    an exception raised on one record propagates out of the whole call. -/
def newsClean : List JVal → Except String (List NewsItem)
  | [] => .ok []
  | item :: rest =>
      match normalizeNews item with
      | .error e => .error e
      | .ok a =>
          match newsClean rest with
          | .error e => .error e
          | .ok l => .ok (a :: l)

/-- Asset.get_news: the first limit raw records, normalized. -/
def get_news (raw_news : List JVal) (limit : Nat) : Except String (List NewsItem) :=
  if raw_news.isEmpty then .ok [] else newsClean (raw_news.take limit)

/-! Exact rational statistics, used to express what the pipeline computes
    on all-finite data. -/

def meanQ (l : List ℚ) : ℚ := l.sum / (l.length : ℚ)

def varQ (l : List ℚ) : ℚ :=
  ((l.map (fun x => (x - meanQ l) * (x - meanQ l))).sum) / ((l.length : ℚ) - 1)

def covQ (l : List (ℚ × ℚ)) : ℚ :=
  ((l.map (fun p =>
      (p.1 - meanQ (l.map Prod.fst)) * (p.2 - meanQ (l.map Prod.snd)))).sum) /
    ((l.length : ℚ) - 1)

def finRow (r : Nat × ℚ × ℚ) : Nat × FV ℚ × FV ℚ := (r.1, .fin r.2.1, .fin r.2.2)

def finRows (l : List (Nat × ℚ × ℚ)) : List (Nat × FV ℚ × FV ℚ) := l.map finRow

def stkQ (l : List (Nat × ℚ × ℚ)) : List ℚ := l.map (fun r => r.2.1)

def mktQ (l : List (Nat × ℚ × ℚ)) : List ℚ := l.map (fun r => r.2.2)

def pairsQ (l : List (Nat × ℚ × ℚ)) : List (ℚ × ℚ) :=
  l.map (fun r => (r.2.1, r.2.2))

/-- The selected URL block of a raw news record content dict: the
    clickThroughUrl value if truthy, else the canonicalUrl value (the
    Python or-chain on line 65 of the source). -/
def ctuOf (cfs : List (String × JVal)) : JVal :=
  (jLookup "clickThroughUrl" cfs).getD JVal.null

def canuOf (cfs : List (String × JVal)) : JVal :=
  (jLookup "canonicalUrl" cfs).getD JVal.null

def urlDataOf (cfs : List (String × JVal)) : JVal :=
  if truthy (ctuOf cfs) then ctuOf cfs else canuOf cfs

/-! Theorems.  First a few helper lemmas for evaluating the pipeline on
    concrete inputs (rational normalization is not definitional, so these
    go through simp and norm_num rather than decide). -/

theorem fvSub_fin (a b : α) : fvSub (FV.fin a) (FV.fin b) = FV.fin (a - b) := by
  simp [fvSub, fvAdd, fvNeg, sub_eq_add_neg]

theorem fvDiv_fin (a b : α) (h : b ≠ 0) :
    fvDiv (FV.fin a) (FV.fin b) = FV.fin (a / b) := by
  simp [fvDiv, h]

theorem fvSum_map_fin (l : List ℚ) : fvSum (l.map FV.fin) = FV.fin l.sum := by
  induction l with
  | nil => rfl
  | cons x t ih =>
    show fvAdd (FV.fin x) (fvSum (t.map FV.fin)) = FV.fin ((x :: t).sum)
    rw [ih]
    simp [fvAdd]

theorem filter_nonNan_map_fin (l : List ℚ) :
    (l.map FV.fin).filter (fun x => !(FV.isNan x)) = l.map FV.fin := by
  induction l with
  | nil => rfl
  | cons x t ih => simp [FV.isNan, List.filter, ih]

theorem fvMean_map_fin (l : List ℚ) (h : l ≠ []) :
    fvMean (l.map FV.fin) = FV.fin (meanQ l) := by
  have hlen : l.length ≠ 0 := by simp [List.length_eq_zero, h]
  simp only [fvMean, filter_nonNan_map_fin, List.length_map]
  rw [if_neg hlen, fvSum_map_fin, fvDiv_fin _ _ (Nat.cast_ne_zero.mpr hlen)]
  rfl

theorem fvVar_map_fin (l : List ℚ) (h : 2 ≤ l.length) :
    fvVar (l.map FV.fin) = FV.fin (varQ l) := by
  have hlen : l.length ≠ 0 := by omega
  have hden : ((l.length : ℚ) - 1) ≠ 0 := by
    have : (2 : ℚ) ≤ (l.length : ℚ) := by exact_mod_cast h
    linarith
  have hmean : fvDiv (fvSum (l.map FV.fin)) (FV.fin (l.length : ℚ)) =
      FV.fin (meanQ l) := by
    rw [fvSum_map_fin, fvDiv_fin _ _ (Nat.cast_ne_zero.mpr hlen)]
    rfl
  simp only [fvVar, filter_nonNan_map_fin, List.length_map]
  rw [if_neg hlen, hmean]
  have hmap : (l.map FV.fin).map
      (fun x => fvMul (fvSub x (FV.fin (meanQ l))) (fvSub x (FV.fin (meanQ l)))) =
      (l.map (fun q => (q - meanQ l) * (q - meanQ l))).map FV.fin := by
    simp only [List.map_map]
    refine List.map_congr_left (fun q _ => ?_)
    simp [Function.comp, fvSub_fin, fvMul]
  rw [hmap, fvSum_map_fin, fvDiv_fin _ _ hden]
  rfl

theorem filter_nonNan_map_finPair (l : List (ℚ × ℚ)) :
    (l.map (fun p => ((FV.fin p.1 : FV ℚ), (FV.fin p.2 : FV ℚ)))).filter
      (fun p => !(FV.isNan p.1) && !(FV.isNan p.2)) =
      l.map (fun p => (FV.fin p.1, FV.fin p.2)) := by
  induction l with
  | nil => rfl
  | cons x t ih =>
    simp only [List.map_cons]
    rw [List.filter_cons_of_pos (by rfl), ih]

theorem fvCov_map_fin (l : List (ℚ × ℚ)) (h : 2 ≤ l.length) :
    fvCov (l.map (fun p => (FV.fin p.1, FV.fin p.2))) = FV.fin (covQ l) := by
  have hlen : l.length ≠ 0 := by omega
  have hden : ((l.length : ℚ) - 1) ≠ 0 := by
    have : (2 : ℚ) ≤ (l.length : ℚ) := by exact_mod_cast h
    linarith
  have hfilter := filter_nonNan_map_finPair l
  have hfst : (l.map (fun p => ((FV.fin p.1 : FV ℚ), (FV.fin p.2 : FV ℚ)))).map
      Prod.fst = (l.map Prod.fst).map FV.fin := by
    simp [List.map_map, Function.comp]
  have hsnd : (l.map (fun p => ((FV.fin p.1 : FV ℚ), (FV.fin p.2 : FV ℚ)))).map
      Prod.snd = (l.map Prod.snd).map FV.fin := by
    simp [List.map_map, Function.comp]
  have hmx : fvDiv (fvSum ((l.map Prod.fst).map FV.fin))
      (FV.fin (l.length : ℚ)) = FV.fin (meanQ (l.map Prod.fst)) := by
    rw [fvSum_map_fin, fvDiv_fin _ _ (Nat.cast_ne_zero.mpr hlen)]
    simp [meanQ]
  have hmy : fvDiv (fvSum ((l.map Prod.snd).map FV.fin))
      (FV.fin (l.length : ℚ)) = FV.fin (meanQ (l.map Prod.snd)) := by
    rw [fvSum_map_fin, fvDiv_fin _ _ (Nat.cast_ne_zero.mpr hlen)]
    simp [meanQ]
  simp only [fvCov, hfilter, List.length_map, hfst, hsnd]
  rw [if_neg hlen, hmx, hmy]
  have hmap : (l.map (fun p => ((FV.fin p.1 : FV ℚ), (FV.fin p.2 : FV ℚ)))).map
      (fun p => fvMul (fvSub p.1 (FV.fin (meanQ (l.map Prod.fst))))
        (fvSub p.2 (FV.fin (meanQ (l.map Prod.snd))))) =
      (l.map (fun p => (p.1 - meanQ (l.map Prod.fst)) *
        (p.2 - meanQ (l.map Prod.snd)))).map FV.fin := by
    simp only [List.map_map]
    refine List.map_congr_left (fun q _ => ?_)
    simp [Function.comp, fvSub_fin, fvMul]
  rw [hmap, fvSum_map_fin, fvDiv_fin _ _ hden]
  rfl

theorem stockCol_finRows (l : List (Nat × ℚ × ℚ)) :
    stockCol (finRows l) = (stkQ l).map FV.fin := by
  simp [stockCol, finRows, finRow, stkQ, List.map_map, Function.comp]

theorem marketCol_finRows (l : List (Nat × ℚ × ℚ)) :
    marketCol (finRows l) = (mktQ l).map FV.fin := by
  simp [marketCol, finRows, finRow, mktQ, List.map_map, Function.comp]

theorem pairsOf_finRows (l : List (Nat × ℚ × ℚ)) :
    pairsOf (finRows l) = (pairsQ l).map (fun p => (FV.fin p.1, FV.fin p.2)) := by
  simp [pairsOf, finRows, finRow, pairsQ, List.map_map, Function.comp]

theorem varQ_nonneg (l : List ℚ) (h : 2 ≤ l.length) : 0 ≤ varQ l := by
  have hnum : 0 ≤ (l.map (fun x => (x - meanQ l) * (x - meanQ l))).sum := by
    refine List.sum_nonneg (fun x hx => ?_)
    rcases List.mem_map.mp hx with ⟨q, _, rfl⟩
    exact mul_self_nonneg _
  have hden : (0 : ℚ) < (l.length : ℚ) - 1 := by
    have : (2 : ℚ) ≤ (l.length : ℚ) := by exact_mod_cast h
    linarith
  exact div_nonneg hnum (le_of_lt hden)

theorem fvVar_singleton (q : ℚ) : fvVar [FV.fin q] = FV.nan := by
  norm_num [fvVar, fvSum, fvDiv, fvMul, fvSub, fvAdd, fvNeg, FV.isNan,
    List.filter]

theorem fvCov_singleton (a b : ℚ) : fvCov [(FV.fin a, FV.fin b)] = FV.nan := by
  norm_num [fvCov, fvSum, fvDiv, fvMul, fvSub, fvAdd, fvNeg, FV.isNan,
    List.filter]

theorem pct_change_two (d1 d2 : Nat) (p1 p2 : ℚ) (h : p1 ≠ 0) :
    pct_change_dropna [(d1, p1), (d2, p2)] =
      [(d2, FV.fin ((p2 - p1) / p1))] := by
  simp [pct_change_dropna, pctList, pctVal, FV.isNan, h]

theorem pctA_stock :
    pct_change_dropna [((1 : Nat), (100 : ℚ)), (2, 110)] =
      [(2, FV.fin (1 / 10))] := by
  rw [pct_change_two 1 2 100 110 (by norm_num)]
  norm_num

theorem pctA_market :
    pct_change_dropna [((1 : Nat), (50 : ℚ)), (2, 55)] =
      [(2, FV.fin (1 / 10))] := by
  rw [pct_change_two 1 2 50 55 (by norm_num)]
  norm_num

theorem joinA :
    innerJoin (pct_change_dropna [((1 : Nat), (100 : ℚ)), (2, 110)])
        (pct_change_dropna [((1 : Nat), (50 : ℚ)), (2, 55)]) =
      [(2, FV.fin (1 / 10), FV.fin (1 / 10))] := by
  rw [pctA_stock, pctA_market]
  simp [innerJoin, lookupDate, FV.isNan]

theorem metricsA :
    calculate_risk_metrics [((1 : Nat), (100 : ℚ)), (2, 110)]
        [((1 : Nat), (50 : ℚ)), (2, 55)] =
      some ⟨FV.nan, FV.nan, FV.nan⟩ := by
  have hvar : fvVar (marketCol [(2, FV.fin ((1 : ℚ) / 10),
      FV.fin ((1 : ℚ) / 10))]) = FV.nan := fvVar_singleton (1 / 10)
  have hvar2 : fvVar (stockCol [(2, FV.fin ((1 : ℚ) / 10),
      FV.fin ((1 : ℚ) / 10))]) = FV.nan := fvVar_singleton (1 / 10)
  have hcov : fvCov (pairsOf [(2, FV.fin ((1 : ℚ) / 10),
      FV.fin ((1 : ℚ) / 10))]) = FV.nan := fvCov_singleton (1 / 10) (1 / 10)
  have hb : betaOf [(2, FV.fin ((1 : ℚ) / 10), FV.fin ((1 : ℚ) / 10))] =
      FV.nan := by
    simp only [betaOf]
    rw [hvar, hcov]
    rfl
  have hv : volatilityOf [(2, FV.fin ((1 : ℚ) / 10), FV.fin ((1 : ℚ) / 10))] =
      FV.nan := by
    simp only [volatilityOf]
    rw [hvar2]
    rfl
  have hs : sharpeOf [(2, FV.fin ((1 : ℚ) / 10), FV.fin ((1 : ℚ) / 10))] =
      FV.nan := by
    simp only [sharpeOf]
    rw [hv]
    rfl
  have hred : calculate_risk_metrics [((1 : Nat), (100 : ℚ)), (2, 110)]
      [((1 : Nat), (50 : ℚ)), (2, 55)] =
      some ⟨betaOf (innerJoin (pct_change_dropna [((1 : Nat), (100 : ℚ)), (2, 110)])
              (pct_change_dropna [((1 : Nat), (50 : ℚ)), (2, 55)])),
            volatilityOf (innerJoin (pct_change_dropna [((1 : Nat), (100 : ℚ)), (2, 110)])
              (pct_change_dropna [((1 : Nat), (50 : ℚ)), (2, 55)])),
            sharpeOf (innerJoin (pct_change_dropna [((1 : Nat), (100 : ℚ)), (2, 110)])
              (pct_change_dropna [((1 : Nat), (50 : ℚ)), (2, 55)]))⟩ := rfl
  rw [hred, joinA, hb, hv, hs]

theorem fvAdd_fin_inv {x y : FV ℚ} {s : ℚ} (h : fvAdd x y = FV.fin s) :
    ∃ a b, x = FV.fin a ∧ y = FV.fin b ∧ s = a + b := by
  cases x <;> cases y <;> simp [fvAdd] at h <;>
    exact ⟨_, _, rfl, rfl, h.symm⟩

theorem fvMul_self_fin_inv {z : FV ℚ} {a : ℚ} (h : fvMul z z = FV.fin a) :
    ∃ w, z = FV.fin w ∧ a = w * w := by
  cases z <;> simp [fvMul] at h
  exact ⟨_, rfl, h.symm⟩

theorem fvSum_sq_nonneg {l : List (FV ℚ)} {s : ℚ}
    (hsq : ∀ y ∈ l, ∃ z, y = fvMul z z) (h : fvSum l = FV.fin s) : 0 ≤ s := by
  induction l generalizing s with
  | nil =>
    have h0 : (FV.fin (0 : ℚ)) = FV.fin s := h
    simp only [FV.fin.injEq] at h0
    simp [← h0]
  | cons y t ih =>
    have h2 : fvAdd y (fvSum t) = FV.fin s := h
    rcases fvAdd_fin_inv h2 with ⟨a, b, hy, ht, hs⟩
    rcases hsq y (List.mem_cons_self _ _) with ⟨z, hz⟩
    have ha : 0 ≤ a := by
      rw [hz] at hy
      rcases fvMul_self_fin_inv hy with ⟨w, _, hw⟩
      rw [hw]
      exact mul_self_nonneg w
    have hb : 0 ≤ b :=
      ih (fun y2 hy2 => hsq y2 (List.mem_cons_of_mem _ hy2)) ht
    rw [hs]
    linarith

theorem fvDiv_fin_snd_inv {x : FV ℚ} {c q : ℚ}
    (h : fvDiv x (FV.fin c) = FV.fin q) :
    ∃ a, x = FV.fin a ∧ ¬ c = 0 ∧ q = a / c := by
  cases x with
  | fin a =>
    by_cases hc : c = 0
    · have h2 : (if 0 < a then FV.inf else if a < 0 then FV.ninf else FV.nan) =
          FV.fin q := by
        rw [← h]; simp [fvDiv, hc]
      split_ifs at h2 <;> simp at h2
    · rw [fvDiv_fin _ _ hc] at h
      exact ⟨a, rfl, hc, ((FV.fin.injEq _ _).mp h).symm⟩
  | inf =>
    have h2 : (if 0 ≤ c then FV.inf else FV.ninf) = FV.fin q := h
    split_ifs at h2 <;> simp at h2
  | ninf =>
    have h2 : (if 0 ≤ c then FV.ninf else FV.inf) = FV.fin q := h
    split_ifs at h2 <;> simp at h2
  | nan => simp [fvDiv] at h

/-- Whenever the pandas sample variance of a float column is a number (not
    NaN or infinite), that number is nonnegative. -/
theorem fvVar_fin_nonneg {l : List (FV ℚ)} {q : ℚ} (h : fvVar l = FV.fin q) :
    0 ≤ q := by
  by_cases h0 : (l.filter (fun x => !(FV.isNan x))).length = 0
  · simp only [fvVar] at h
    rw [if_pos h0] at h
    exact absurd h (by simp)
  · simp only [fvVar] at h
    rw [if_neg h0] at h
    rcases fvDiv_fin_snd_inv h with ⟨a, ha, hc, hq⟩
    have hs : 0 ≤ a := by
      refine fvSum_sq_nonneg (fun y hy => ?_) ha
      rcases List.mem_map.mp hy with ⟨x, _, rfl⟩
      exact ⟨_, rfl⟩
    have hcpos : 0 < ((l.filter (fun x => !(FV.isNan x))).length : ℚ) - 1 := by
      have hge : 2 ≤ (l.filter (fun x => !(FV.isNan x))).length := by
        rcases Nat.lt_or_ge (l.filter (fun x => !(FV.isNan x))).length 2 with hlt | hge
        · exfalso
          have h1 : (l.filter (fun x => !(FV.isNan x))).length = 1 := by omega
          apply hc
          rw [h1]
          norm_num
        · exact hge
      have h2 : (2 : ℚ) ≤ ((l.filter (fun x => !(FV.isNan x))).length : ℚ) := by
        exact_mod_cast hge
      linarith
    rw [hq]
    exact div_nonneg hs (le_of_lt hcpos)

/-- Claim C4.  For every non-empty aligned frame, beta is the float
    quotient cov / var of the aligned columns whenever the market variance
    compares unequal to 0 (which includes the NaN variance of a one-row
    frame), and is exactly 1.0 whenever the market variance is exactly 0,
    with no division performed in that case; on all-finite data with at
    least two rows and nonzero exact variance, beta is the exact rational
    cov / var. -/
theorem c4_beta (row : Nat × ℚ × ℚ) (rest : List (Nat × ℚ × ℚ)) :
    (fvVar (marketCol (finRows (row :: rest))) = FV.fin 0 →
      betaOf (finRows (row :: rest)) = FV.fin 1) ∧
    (fvVar (marketCol (finRows (row :: rest))) ≠ FV.fin 0 →
      betaOf (finRows (row :: rest)) =
        fvDiv (fvCov (pairsOf (finRows (row :: rest))))
          (fvVar (marketCol (finRows (row :: rest))))) ∧
    (2 ≤ (row :: rest).length → varQ (mktQ (row :: rest)) ≠ 0 →
      betaOf (finRows (row :: rest)) =
        FV.fin (covQ (pairsQ (row :: rest)) / varQ (mktQ (row :: rest)))) := by
  refine ⟨?_, ?_, ?_⟩
  · intro h
    simp only [betaOf]
    rw [h]
    simp [fvNe0]
  · intro h
    have hne : fvNe0 (fvVar (marketCol (finRows (row :: rest)))) = true := by
      cases hv : fvVar (marketCol (finRows (row :: rest))) with
      | fin v =>
        have hv0 : v ≠ 0 := fun hz => h (by rw [hv, hz])
        simp [fvNe0, hv0]
      | inf => rfl
      | ninf => rfl
      | nan => rfl
    simp only [betaOf]
    rw [if_pos hne]
  · intro hlen hvq
    have hvar : fvVar (marketCol (finRows (row :: rest))) =
        FV.fin (varQ (mktQ (row :: rest))) := by
      rw [marketCol_finRows]
      exact fvVar_map_fin _ (by simpa [mktQ] using hlen)
    have hcov : fvCov (pairsOf (finRows (row :: rest))) =
        FV.fin (covQ (pairsQ (row :: rest))) := by
      rw [pairsOf_finRows]
      exact fvCov_map_fin _ (by simpa [pairsQ] using hlen)
    have hne : fvNe0 (FV.fin (varQ (mktQ (row :: rest)))) = true := by
      simp [fvNe0, hvq]
    simp only [betaOf]
    rw [hvar, hcov, if_pos hne, fvDiv_fin _ _ hvq]

/-- Claim C5.  For every non-empty aligned frame, sharpe is exactly 0
    whenever the computed volatility is exactly 0 (no division performed),
    and otherwise is the float quotient of (mean * 252 - 0.04) by
    (volatility / 100), the risk-free rate being the engine constant 1/25;
    on all-finite data with at least two rows and nonzero exact variance
    the exact value is spelled out. -/
theorem c5_sharpe (row : Nat × ℚ × ℚ) (rest : List (Nat × ℚ × ℚ)) :
    (volatilityOf (finRows (row :: rest)) = FV.fin 0 →
      sharpeOf (finRows (row :: rest)) = FV.fin 0) ∧
    (volatilityOf (finRows (row :: rest)) ≠ FV.fin 0 →
      sharpeOf (finRows (row :: rest)) =
        fvDiv (toR (excessOf (finRows (row :: rest))))
          (fvDiv (volatilityOf (finRows (row :: rest))) (FV.fin 100))) ∧
    (2 ≤ (row :: rest).length → varQ (stkQ (row :: rest)) ≠ 0 →
      sharpeOf (finRows (row :: rest)) =
        FV.fin (((meanQ (stkQ (row :: rest)) * 252 - risk_free_rate : ℚ) : ℝ) /
          (Real.sqrt ((varQ (stkQ (row :: rest)) : ℝ)) * Real.sqrt 252 * 100 /
            100))) := by
  refine ⟨?_, ?_, ?_⟩
  · intro h
    simp only [sharpeOf]
    rw [h]
    simp [fvNe0]
  · intro h
    have hne : fvNe0 (volatilityOf (finRows (row :: rest))) = true := by
      cases hv : volatilityOf (finRows (row :: rest)) with
      | fin v =>
        have hv0 : v ≠ 0 := fun hz => h (by rw [hv, hz])
        simp [fvNe0, hv0]
      | inf => rfl
      | ninf => rfl
      | nan => rfl
    simp only [sharpeOf]
    rw [if_pos hne]
  · intro hlen hvq
    have hlen2 : 2 ≤ (stkQ (row :: rest)).length := by simpa [stkQ] using hlen
    have hvar : fvVar (stockCol (finRows (row :: rest))) =
        FV.fin (varQ (stkQ (row :: rest))) := by
      rw [stockCol_finRows]
      exact fvVar_map_fin _ hlen2
    have hvpos : 0 < varQ (stkQ (row :: rest)) :=
      lt_of_le_of_ne (varQ_nonneg _ hlen2) (Ne.symm hvq)
    have hsqrt : fvSqrt (FV.fin (varQ (stkQ (row :: rest)))) =
        FV.fin (Real.sqrt ((varQ (stkQ (row :: rest)) : ℝ))) := by
      simp [fvSqrt, not_lt.mpr (le_of_lt hvpos)]
    have hvol : volatilityOf (finRows (row :: rest)) =
        FV.fin (Real.sqrt ((varQ (stkQ (row :: rest)) : ℝ)) * Real.sqrt 252 *
          100) := by
      simp only [volatilityOf]
      rw [hvar, hsqrt]
      rfl
    have hvpos2 : (0 : ℝ) <
        Real.sqrt ((varQ (stkQ (row :: rest)) : ℝ)) * Real.sqrt 252 * 100 := by
      have h1 : (0 : ℝ) < Real.sqrt ((varQ (stkQ (row :: rest)) : ℝ)) :=
        Real.sqrt_pos.mpr (by exact_mod_cast hvpos)
      have h2 : (0 : ℝ) < Real.sqrt 252 := Real.sqrt_pos.mpr (by norm_num)
      positivity
    have hne : fvNe0 (volatilityOf (finRows (row :: rest))) = true := by
      rw [hvol]
      simp only [fvNe0, decide_eq_true_eq]
      exact ne_of_gt hvpos2
    have hmean : fvMean (stockCol (finRows (row :: rest))) =
        FV.fin (meanQ (stkQ (row :: rest))) := by
      rw [stockCol_finRows]
      refine fvMean_map_fin _ ?_
      intro hnil
      rw [hnil] at hlen2
      simp at hlen2
    have hexcess : excessOf (finRows (row :: rest)) =
        FV.fin (meanQ (stkQ (row :: rest)) * 252 - risk_free_rate) := by
      simp only [excessOf]
      rw [hmean]
      rw [show fvMul (FV.fin (meanQ (stkQ (row :: rest)))) (FV.fin (252 : ℚ)) =
        FV.fin (meanQ (stkQ (row :: rest)) * 252) from rfl]
      exact fvSub_fin _ _
    simp only [sharpeOf]
    rw [if_pos hne, hexcess, hvol]
    rw [show toR (FV.fin (meanQ (stkQ (row :: rest)) * 252 - risk_free_rate)) =
      FV.fin (((meanQ (stkQ (row :: rest)) * 252 - risk_free_rate : ℚ) : ℝ))
      from rfl]
    rw [fvDiv_fin _ _ (by norm_num : (100 : ℝ) ≠ 0)]
    rw [fvDiv_fin _ _ (div_ne_zero (ne_of_gt hvpos2) (by norm_num))]

theorem lookupDate_mem {d : Nat} {m : List (Nat × FV ℚ)} {w : FV ℚ}
    (h : lookupDate d m = some w) : (d, w) ∈ m := by
  induction m with
  | nil => simp [lookupDate] at h
  | cons p t ih =>
    rcases p with ⟨e, v⟩
    simp only [lookupDate] at h
    split_ifs at h with he
    · rcases Option.some.inj h with rfl
      rw [← he]
      exact List.mem_cons_self _ _
    · exact List.mem_cons_of_mem _ (ih h)

theorem mem_datesOf {β : Type} {d : Nat} {l : List (Nat × β)} :
    d ∈ datesOf l ↔ ∃ v, (d, v) ∈ l := by
  simp only [datesOf, List.mem_map]
  constructor
  · rintro ⟨⟨e, v⟩, hp, rfl⟩
    exact ⟨v, hp⟩
  · rintro ⟨v, hv⟩
    exact ⟨(d, v), hv, rfl⟩

theorem lookupDate_isSome_of_mem {d : Nat} {m : List (Nat × FV ℚ)} {w : FV ℚ}
    (h : (d, w) ∈ m) : ∃ u, lookupDate d m = some u := by
  induction m with
  | nil => simp at h
  | cons p t ih =>
    rcases p with ⟨e, v⟩
    simp only [lookupDate]
    by_cases he : e = d
    · rw [if_pos he]
      exact ⟨v, rfl⟩
    · rw [if_neg he]
      rcases List.mem_cons.mp h with heq | hmem
      · exact absurd (congrArg Prod.fst heq).symm he
      · exact ih hmem

/-- A row survives the concat-then-dropna alignment exactly when its date
    carries a value in the security series, the benchmark series holds the
    row value at that date, and neither value is NaN. -/
theorem mem_innerJoin {s m : List (Nat × FV ℚ)} {r : Nat × FV ℚ × FV ℚ} :
    r ∈ innerJoin s m ↔
      (r.1, r.2.1) ∈ s ∧ lookupDate r.1 m = some r.2.2 ∧
      r.2.1.isNan = false ∧ r.2.2.isNan = false := by
  simp only [innerJoin, List.mem_filterMap]
  constructor
  · rintro ⟨p, hp, hf⟩
    rcases hl : lookupDate p.1 m with _ | w
    all_goals rw [hl] at hf
    all_goals dsimp only at hf
    · simp at hf
    · split_ifs at hf with hn
      have hr : (p.1, p.2, w) = r := Option.some.inj hf
      subst hr
      simp only [Bool.or_eq_true, not_or, Bool.not_eq_true] at hn
      exact ⟨hp, hl, hn.1, hn.2⟩
  · rintro ⟨hs, hl, hn1, hn2⟩
    refine ⟨(r.1, r.2.1), hs, ?_⟩
    show (match lookupDate r.1 m with
      | some w => if (r.2.1).isNan || w.isNan then none
          else some (r.1, r.2.1, w)
      | none => none) = some r
    rw [hl]
    simp [hn1, hn2]

theorem innerJoin_dates_sublist (s m : List (Nat × FV ℚ)) :
    List.Sublist (datesOf (innerJoin s m)) (datesOf s) := by
  induction s with
  | nil => simp [innerJoin, datesOf]
  | cons p t ih =>
    rcases hl : lookupDate p.1 m with _ | w
    · have he : innerJoin (p :: t) m = innerJoin t m := by
        simp [innerJoin, List.filterMap_cons, hl]
      rw [he]
      exact ih.cons _
    · rcases hn1 : ((p.2).isNan) with _ | _
      · rcases hn2 : w.isNan with _ | _
        · have he : innerJoin (p :: t) m = (p.1, p.2, w) :: innerJoin t m := by
            simp [innerJoin, List.filterMap_cons, hl, hn1, hn2]
          rw [he]
          exact ih.cons₂ _
        · have he : innerJoin (p :: t) m = innerJoin t m := by
            simp [innerJoin, List.filterMap_cons, hl, hn1, hn2]
          rw [he]
          exact ih.cons _
      · have he : innerJoin (p :: t) m = innerJoin t m := by
          simp [innerJoin, List.filterMap_cons, hl, hn1]
        rw [he]
        exact ih.cons _

/-- Claim C6.  The aligned frame built from two return series with
    strictly increasing dates and no NaN values covers exactly the dates
    present in both series, each surviving row carries the security value
    and the benchmark value recorded at its date, and the surviving dates
    remain in strictly ascending order. -/
theorem c6_align (s m : List (Nat × FV ℚ))
    (hs : List.Chain' (fun a b => a < b) (datesOf s))
    (hsv : ∀ p ∈ s, (p.2).isNan = false)
    (hmv : ∀ p ∈ m, (p.2).isNan = false) :
    (∀ d : Nat, d ∈ datesOf (innerJoin s m) ↔ d ∈ datesOf s ∧ d ∈ datesOf m) ∧
    List.Chain' (fun a b => a < b) (datesOf (innerJoin s m)) ∧
    (∀ r ∈ innerJoin s m, (r.1, r.2.1) ∈ s ∧ (r.1, r.2.2) ∈ m) := by
  refine ⟨?_, ?_, ?_⟩
  · intro d
    constructor
    · intro hd
      rcases mem_datesOf.mp hd with ⟨v, hv⟩
      rcases mem_innerJoin.mp hv with ⟨h1, h2, _, _⟩
      exact ⟨mem_datesOf.mpr ⟨_, h1⟩, mem_datesOf.mpr ⟨_, lookupDate_mem h2⟩⟩
    · rintro ⟨hds, hdm⟩
      rcases mem_datesOf.mp hds with ⟨v, hv⟩
      rcases mem_datesOf.mp hdm with ⟨w, hw⟩
      rcases lookupDate_isSome_of_mem hw with ⟨u, hu⟩
      have hun : u.isNan = false := hmv _ (lookupDate_mem hu)
      have hvn : v.isNan = false := hsv _ hv
      exact mem_datesOf.mpr ⟨(v, u), mem_innerJoin.mpr ⟨hv, hu, hvn, hun⟩⟩
  · have hp : List.Pairwise (fun a b => a < b) (datesOf s) :=
      List.chain'_iff_pairwise.mp hs
    exact List.chain'_iff_pairwise.mpr
      (hp.sublist (innerJoin_dates_sublist s m))
  · intro r hr
    rcases mem_innerJoin.mp hr with ⟨h1, h2, _, _⟩
    exact ⟨h1, lookupDate_mem h2⟩

theorem pctVal_isNan (prev cur : ℚ) :
    (pctVal prev cur).isNan = true ↔ prev = 0 ∧ cur = 0 := by
  unfold pctVal
  split_ifs with h1 h2 h3 <;> simp [FV.isNan, *]

theorem pctList_length (a : Nat × ℚ) (rest : List (Nat × ℚ))
    (h : List.Chain (fun p q : Nat × ℚ => ¬(p.2 = 0 ∧ q.2 = 0)) a rest) :
    (pctList a.2 rest).length = rest.length := by
  induction rest generalizing a with
  | nil => rfl
  | cons b t ih =>
    rcases List.chain_cons.mp h with ⟨hab, hbt⟩
    have hnn : (pctVal a.2 b.2).isNan = false := by
      rcases hn : (pctVal a.2 b.2).isNan with _ | _
      · rfl
      · exact absurd ((pctVal_isNan _ _).mp hn) hab
    rcases b with ⟨bd, bp⟩
    simp only [pctList, hnn, Bool.false_eq_true, if_false, List.length_cons]
    exact congrArg (· + 1) (ih (bd, bp) hbt)

theorem pctList_dates_sublist (prev : ℚ) (rest : List (Nat × ℚ)) :
    List.Sublist (datesOf (pctList prev rest)) (datesOf rest) := by
  induction rest generalizing prev with
  | nil => simp [pctList, datesOf]
  | cons b t ih =>
    rcases b with ⟨bd, bp⟩
    simp only [pctList]
    split_ifs with hn
    · exact (ih bp).cons _
    · exact (ih bp).cons₂ _

/-- Claim C7, amended.  For a price series whose consecutive closes are
    never both zero (in particular any series of nonzero closes), the
    return series has length exactly one less than the price series when
    the latter has at least 2 bars; a shorter series gives an empty return
    series; and every return is attributed to a date of a bar after the
    first, so never to a date earlier than the first date when dates
    ascend. -/
theorem c7_returns (l : List (Nat × ℚ)) :
    (List.Chain' (fun p q : Nat × ℚ => ¬(p.2 = 0 ∧ q.2 = 0)) l →
      2 ≤ l.length → (pct_change_dropna l).length = l.length - 1) ∧
    (l.length < 2 → pct_change_dropna l = []) ∧
    List.Sublist (datesOf (pct_change_dropna l)) (datesOf l).tail ∧
    (List.Chain' (fun a b : Nat => a < b) (datesOf l) →
      ∀ dfirst ∈ (datesOf l).head?, ∀ d ∈ datesOf (pct_change_dropna l),
        dfirst < d) := by
  refine ⟨?_, ?_, ?_, ?_⟩
  · intro hch hlen
    rcases l with _ | ⟨⟨d0, p0⟩, rest⟩
    · simp at hlen
    · show (pctList p0 rest).length = rest.length + 1 - 1
      rw [pctList_length (d0, p0) rest hch]
      simp
  · intro hlen
    rcases l with _ | ⟨⟨d0, p0⟩, _ | ⟨b, t⟩⟩
    · rfl
    · rfl
    · simp only [List.length_cons] at hlen
      omega
  · rcases l with _ | ⟨⟨d0, p0⟩, rest⟩
    · simp [pct_change_dropna, datesOf]
    · exact pctList_dates_sublist p0 rest
  · intro hsorted dfirst hd0 d hd
    rcases l with _ | ⟨⟨d0, p0⟩, rest⟩
    · simp [datesOf] at hd0
    · have hdf : d0 = dfirst := by
        simpa [datesOf] using hd0
      have hdm : d ∈ datesOf rest :=
        (pctList_dates_sublist p0 rest).subset hd
      have hpw : List.Pairwise (fun a b : Nat => a < b)
          (d0 :: datesOf rest) := List.chain'_iff_pairwise.mp hsorted
      rw [← hdf]
      exact (List.pairwise_cons.mp hpw).1 d hdm

theorem volatilityOf_formula (data : List (Nat × FV ℚ × FV ℚ)) (q : ℚ)
    (h : fvVar (stockCol data) = FV.fin q) :
    volatilityOf data = FV.fin (Real.sqrt (q : ℝ) * Real.sqrt 252 * 100) := by
  have hq : ¬ q < 0 := not_lt.mpr (fvVar_fin_nonneg h)
  simp only [volatilityOf]
  rw [h]
  rw [show fvSqrt (FV.fin q) = FV.fin (Real.sqrt (q : ℝ)) from by
    simp [fvSqrt, hq]]
  rfl

theorem volatilityOf_nonneg_of_ne_nan (data : List (Nat × FV ℚ × FV ℚ))
    (h : volatilityOf data ≠ FV.nan) : fvNonneg (volatilityOf data) := by
  rcases hv : fvVar (stockCol data) with q | _ | _ | _
  · rw [volatilityOf_formula data q hv]
    show (0 : ℝ) ≤ Real.sqrt (q : ℝ) * Real.sqrt 252 * 100
    positivity
  · have h1 : fvMul FV.inf (FV.fin (Real.sqrt 252)) = (FV.inf : FV ℝ) := by
      rw [show fvMul FV.inf (FV.fin (Real.sqrt 252)) =
        (if 0 < Real.sqrt 252 then FV.inf else
          if Real.sqrt 252 < 0 then FV.ninf else FV.nan) from rfl]
      rw [if_pos (Real.sqrt_pos.mpr (by norm_num))]
    have h2 : volatilityOf data = FV.inf := by
      simp only [volatilityOf]
      rw [hv]
      rw [show fvSqrt FV.inf = (FV.inf : FV ℝ) from rfl]
      rw [h1]
      rw [show fvMul (FV.inf : FV ℝ) (FV.fin 100) =
        (if (0 : ℝ) < 100 then FV.inf else
          if (100 : ℝ) < 0 then FV.ninf else FV.nan) from rfl]
      rw [if_pos (by norm_num : (0 : ℝ) < 100)]
    rw [h2]
    trivial
  · exfalso
    apply h
    simp only [volatilityOf]
    rw [hv]
    rfl
  · exfalso
    apply h
    simp only [volatilityOf]
    rw [hv]
    rfl

/-- Claim C8, amended.  Whenever the two fetched price series are
    non-empty a metrics record is returned whose volatility field is the
    float value std(securityReturn) * sqrt(252) * 100 of the aligned
    frame; whenever that value is a number or infinite (not NaN) it is
    nonnegative, and whenever the sample variance of the aligned security
    returns is the (necessarily nonnegative) number q, the volatility is
    exactly sqrt(q) * sqrt(252) * 100, which is nonnegative.  (With fewer
    than 2 aligned rows the standard deviation is NaN and the float
    comparison NaN >= 0 is false, as the counterexample shows.) -/
theorem c8_vol (s0 m0 : Nat × ℚ) (srest mrest : List (Nat × ℚ)) :
    (calculate_risk_metrics (s0 :: srest) (m0 :: mrest)).map
        RiskMetrics.volatility =
      some (volatilityOf (innerJoin (pct_change_dropna (s0 :: srest))
        (pct_change_dropna (m0 :: mrest)))) ∧
    (volatilityOf (innerJoin (pct_change_dropna (s0 :: srest))
        (pct_change_dropna (m0 :: mrest))) ≠ FV.nan →
      fvNonneg (volatilityOf (innerJoin (pct_change_dropna (s0 :: srest))
        (pct_change_dropna (m0 :: mrest))))) ∧
    (∀ q : ℚ, fvVar (stockCol (innerJoin (pct_change_dropna (s0 :: srest))
        (pct_change_dropna (m0 :: mrest)))) = FV.fin q →
      volatilityOf (innerJoin (pct_change_dropna (s0 :: srest))
        (pct_change_dropna (m0 :: mrest))) =
        FV.fin (Real.sqrt (q : ℝ) * Real.sqrt 252 * 100) ∧
      (0 : ℝ) ≤ Real.sqrt (q : ℝ) * Real.sqrt 252 * 100) :=
  ⟨rfl, volatilityOf_nonneg_of_ne_nan _,
    fun q hq => ⟨volatilityOf_formula _ q hq, by positivity⟩⟩

/-- Evaluating the news-record normalization on a record whose content key
    holds a dict: only the url branch and the provider lookup can still
    raise or vary. -/
theorem normalizeNews_content (cfs : List (String × JVal)) :
    normalizeNews (JVal.obj [("content", JVal.obj cfs)]) =
      (match (if truthy (urlDataOf cfs) then
          pyGet (urlDataOf cfs) "url" (JVal.str "#")
        else Except.ok (JVal.str "#")) with
      | .error e => .error e
      | .ok link =>
        match pyGet ((jLookup "provider" cfs).getD (JVal.obj []))
            "displayName" (JVal.str "Unknown") with
        | .error e => .error e
        | .ok publisher =>
            .ok ⟨(jLookup "title" cfs).getD (JVal.str "No Title"), link,
              publisher⟩) := rfl

/-- Claim C9, amended.  For every raw news record whose content block is a
    dict, whose selected URL block is a dict whenever it is truthy, and
    whose provider value (or its default) is a dict, normalization
    produces an item with all three fields: the title falls back to the
    string No Title when the title key is absent, the link is taken from
    the click-through URL block when that is truthy, else from the
    canonical URL block, and is the placeholder when the selected block is
    falsy, and the publisher falls back to Unknown when displayName is
    absent.  (A record whose content key holds null instead raises
    AttributeError, as the counterexample shows.) -/
theorem c9_fallbacks (cfs pfs : List (String × JVal))
    (hprov : (jLookup "provider" cfs).getD (JVal.obj []) = JVal.obj pfs)
    (hurl : truthy (urlDataOf cfs) = true →
      ∃ ufs, urlDataOf cfs = JVal.obj ufs) :
    ∃ t li pu,
      normalizeNews (JVal.obj [("content", JVal.obj cfs)]) =
        Except.ok ⟨t, li, pu⟩ ∧
      t = (jLookup "title" cfs).getD (JVal.str "No Title") ∧
      (jLookup "title" cfs = none → t = JVal.str "No Title") ∧
      (truthy (urlDataOf cfs) = false → li = JVal.str "#") ∧
      (∀ ufs, urlDataOf cfs = JVal.obj ufs → truthy (urlDataOf cfs) = true →
        li = (jLookup "url" ufs).getD (JVal.str "#")) ∧
      (truthy (ctuOf cfs) = true → urlDataOf cfs = ctuOf cfs) ∧
      (truthy (ctuOf cfs) = false → urlDataOf cfs = canuOf cfs) ∧
      pu = (jLookup "displayName" pfs).getD (JVal.str "Unknown") ∧
      (jLookup "displayName" pfs = none → pu = JVal.str "Unknown") := by
  by_cases hu : truthy (urlDataOf cfs) = true
  · rcases hurl hu with ⟨ufs, hobj⟩
    refine ⟨(jLookup "title" cfs).getD (JVal.str "No Title"),
      (jLookup "url" ufs).getD (JVal.str "#"),
      (jLookup "displayName" pfs).getD (JVal.str "Unknown"),
      ?_, rfl, ?_, ?_, ?_, ?_, ?_, rfl, ?_⟩
    · rw [normalizeNews_content, if_pos hu, hobj, hprov]
      rfl
    · intro h
      rw [h]
      rfl
    · intro hf
      rw [hu] at hf
      simp at hf
    · intro ufs2 heq _
      have h2 : JVal.obj ufs = JVal.obj ufs2 := hobj.symm.trans heq
      injection h2 with h3
      rw [h3]
    · intro hc
      simp [urlDataOf, hc]
    · intro hc
      simp [urlDataOf, hc]
    · intro h
      rw [h]
      rfl
  · have hu2 : truthy (urlDataOf cfs) = false := by
      rcases hb : truthy (urlDataOf cfs) with _ | _
      · rfl
      · exact absurd hb hu
    refine ⟨(jLookup "title" cfs).getD (JVal.str "No Title"),
      JVal.str "#",
      (jLookup "displayName" pfs).getD (JVal.str "Unknown"),
      ?_, rfl, ?_, fun _ => rfl, ?_, ?_, ?_, rfl, ?_⟩
    · rw [normalizeNews_content, if_neg (by simp [hu2]), hprov]
      rfl
    · intro h
      rw [h]
      rfl
    · intro ufs2 _ htrue
      exact absurd htrue hu
    · intro hc
      simp [urlDataOf, hc]
    · intro hc
      simp [urlDataOf, hc]
    · intro h
      rw [h]
      rfl

/-- Claim C1.  The claim is refuted by the code: with the two fetched
    series non-empty but sharing no trading day, the aligned frame is
    empty, yet calculate_risk_metrics does not return None; the pandas
    statistics of the empty frame are all NaN, NaN != 0 passes both
    guards, and a record with NaN beta, volatility and sharpe is
    returned. -/
theorem c1_empty_alignment_record :
    innerJoin (pct_change_dropna [((1 : Nat), (100 : ℚ)), (2, 110)])
        (pct_change_dropna [((3 : Nat), (50 : ℚ)), (4, 55)]) = [] ∧
    calculate_risk_metrics [((1 : Nat), (100 : ℚ)), (2, 110)]
        [((3 : Nat), (50 : ℚ)), (4, 55)] =
      some ⟨FV.nan, FV.nan, FV.nan⟩ :=
  ⟨rfl, rfl⟩

/-- Claim C2.  The claim is refuted by the code: on a record whose content
    key holds null, item.get("content", {}) returns None (the default
    applies only to an absent key), so content.get raises AttributeError
    and the whole get_news call aborts; no list of 3 items is produced. -/
theorem c2_null_content_aborts :
    get_news
      [JVal.obj [("content", JVal.obj [("title", JVal.str "A")])],
       JVal.obj [("content", JVal.null)],
       JVal.obj [("content", JVal.obj [])]] 3 = .error "AttributeError" :=
  rfl

/-- Claim C3.  Both one-return series are indeed [+10%], but the claim is
    refuted by the code: the pandas sample variance (ddof = 1) of a single
    market return is NaN, NaN != 0 passes the guard, and beta is the NaN
    quotient, not 1.0. -/
theorem c3_scenario_a_beta_nan :
    pct_change_dropna [((1 : Nat), (100 : ℚ)), (2, 110)] =
      [(2, FV.fin (1 / 10))] ∧
    pct_change_dropna [((1 : Nat), (50 : ℚ)), (2, 55)] =
      [(2, FV.fin (1 / 10))] ∧
    (calculate_risk_metrics [((1 : Nat), (100 : ℚ)), (2, 110)]
        [((1 : Nat), (50 : ℚ)), (2, 55)]).map RiskMetrics.beta = some FV.nan ∧
    (calculate_risk_metrics [((1 : Nat), (100 : ℚ)), (2, 110)]
        [((1 : Nat), (50 : ℚ)), (2, 55)]).map RiskMetrics.beta ≠
      some (FV.fin 1) := by
  refine ⟨pctA_stock, pctA_market, ?_, ?_⟩ <;> rw [metricsA] <;> simp

/-- Claim C7, counterexample.  A price series whose two bars both close at
    0 has 2 bars with every close present and numeric, yet its return
    series is empty, not of length 1: the 0 to 0 change is 0/0 = NaN and
    is dropped. -/
theorem c7_zero_close_shortens :
    (pct_change_dropna [((1 : Nat), (0 : ℚ)), (2, 0)]).length ≠
      [((1 : Nat), (0 : ℚ)), (2, 0)].length - 1 := by decide

/-- Claim C8, counterexample.  On the Scenario A input a metrics record is
    returned whose volatility is NaN (the sample standard deviation of a
    single return is NaN), and NaN >= 0 is false in float comparison, so
    the returned volatility is not always nonnegative. -/
theorem c8_volatility_nan_not_nonneg :
    (calculate_risk_metrics [((1 : Nat), (100 : ℚ)), (2, 110)]
        [((1 : Nat), (50 : ℚ)), (2, 55)]).map RiskMetrics.volatility =
      some FV.nan ∧
    ¬ fvNonneg (FV.nan : FV ℝ) :=
  ⟨by rw [metricsA]; rfl, fun h => h⟩

/-- Claim C9, counterexample.  For the raw record whose content key holds
    null, get_news produces no normalized item at all: the call raises
    AttributeError. -/
theorem c9_null_content_no_item :
    get_news [JVal.obj [("content", JVal.null)]] 3 = .error "AttributeError" :=
  rfl

/-- Claim C10.  When the benchmark price series is empty the guard on line
    26 returns None, whatever the (non-empty) security series holds. -/
theorem c10_empty_market_none (p : Nat × ℚ) (rest : List (Nat × ℚ)) :
    calculate_risk_metrics (p :: rest) [] = none :=
  rfl

/-! Witnesses: each applies its claim theorem at a concrete input with the
    hypotheses discharged there. -/

theorem varConst : fvVar [FV.fin ((1 : ℚ) / 10), FV.fin ((1 : ℚ) / 10)] =
    FV.fin 0 := by
  norm_num [fvVar, fvSum, fvDiv, fvMul, fvSub, fvAdd, fvNeg, FV.isNan,
    List.filter]

/-- Witness for C4: a constant benchmark column has variance exactly 0 and
    beta 1.0, and a benchmark column with two distinct returns has nonzero
    variance and beta cov / var. -/
theorem c4_beta_witness :
    fvVar (marketCol (finRows [((1 : Nat), (1 : ℚ) / 2, (1 : ℚ) / 10),
      ((2 : Nat), (1 : ℚ) / 3, (1 : ℚ) / 10)])) = FV.fin 0 ∧
    betaOf (finRows [((1 : Nat), (1 : ℚ) / 2, (1 : ℚ) / 10),
      ((2 : Nat), (1 : ℚ) / 3, (1 : ℚ) / 10)]) = FV.fin 1 ∧
    varQ (mktQ [((1 : Nat), (1 : ℚ) / 2, (1 : ℚ) / 10),
      ((2 : Nat), (1 : ℚ) / 3, (1 : ℚ) / 5)]) ≠ 0 ∧
    betaOf (finRows [((1 : Nat), (1 : ℚ) / 2, (1 : ℚ) / 10),
      ((2 : Nat), (1 : ℚ) / 3, (1 : ℚ) / 5)]) =
      FV.fin (covQ (pairsQ [((1 : Nat), (1 : ℚ) / 2, (1 : ℚ) / 10),
          ((2 : Nat), (1 : ℚ) / 3, (1 : ℚ) / 5)]) /
        varQ (mktQ [((1 : Nat), (1 : ℚ) / 2, (1 : ℚ) / 10),
          ((2 : Nat), (1 : ℚ) / 3, (1 : ℚ) / 5)])) := by
  have hv0 : fvVar (marketCol (finRows [((1 : Nat), (1 : ℚ) / 2, (1 : ℚ) / 10),
      ((2 : Nat), (1 : ℚ) / 3, (1 : ℚ) / 10)])) = FV.fin 0 := varConst
  have hvne : varQ (mktQ [((1 : Nat), (1 : ℚ) / 2, (1 : ℚ) / 10),
      ((2 : Nat), (1 : ℚ) / 3, (1 : ℚ) / 5)]) ≠ 0 := by
    norm_num [varQ, meanQ, mktQ]
  exact ⟨hv0,
    (c4_beta ((1 : Nat), (1 : ℚ) / 2, (1 : ℚ) / 10)
      [((2 : Nat), (1 : ℚ) / 3, (1 : ℚ) / 10)]).1 hv0,
    hvne,
    (c4_beta ((1 : Nat), (1 : ℚ) / 2, (1 : ℚ) / 10)
      [((2 : Nat), (1 : ℚ) / 3, (1 : ℚ) / 5)]).2.2 (by decide) hvne⟩

/-- Witness for C5: a constant security column has volatility exactly 0
    and sharpe exactly 0, and a security column with two distinct returns
    has the spelled-out sharpe value. -/
theorem c5_sharpe_witness :
    volatilityOf (finRows [((1 : Nat), (1 : ℚ) / 10, (1 : ℚ) / 2),
      ((2 : Nat), (1 : ℚ) / 10, (1 : ℚ) / 4)]) = FV.fin 0 ∧
    sharpeOf (finRows [((1 : Nat), (1 : ℚ) / 10, (1 : ℚ) / 2),
      ((2 : Nat), (1 : ℚ) / 10, (1 : ℚ) / 4)]) = FV.fin 0 ∧
    varQ (stkQ [((1 : Nat), (1 : ℚ) / 10, (1 : ℚ) / 10),
      ((2 : Nat), -((1 : ℚ) / 10), (1 : ℚ) / 5)]) ≠ 0 ∧
    sharpeOf (finRows [((1 : Nat), (1 : ℚ) / 10, (1 : ℚ) / 10),
      ((2 : Nat), -((1 : ℚ) / 10), (1 : ℚ) / 5)]) =
      FV.fin (((meanQ (stkQ [((1 : Nat), (1 : ℚ) / 10, (1 : ℚ) / 10),
          ((2 : Nat), -((1 : ℚ) / 10), (1 : ℚ) / 5)]) * 252 -
          risk_free_rate : ℚ) : ℝ) /
        (Real.sqrt ((varQ (stkQ [((1 : Nat), (1 : ℚ) / 10, (1 : ℚ) / 10),
          ((2 : Nat), -((1 : ℚ) / 10), (1 : ℚ) / 5)]) : ℝ)) *
          Real.sqrt 252 * 100 / 100)) := by
  have hvv : fvVar (stockCol (finRows [((1 : Nat), (1 : ℚ) / 10, (1 : ℚ) / 2),
      ((2 : Nat), (1 : ℚ) / 10, (1 : ℚ) / 4)])) = FV.fin 0 := varConst
  have hvol : volatilityOf (finRows [((1 : Nat), (1 : ℚ) / 10, (1 : ℚ) / 2),
      ((2 : Nat), (1 : ℚ) / 10, (1 : ℚ) / 4)]) = FV.fin 0 := by
    rw [volatilityOf_formula _ 0 hvv]
    norm_num
  have hvarne : varQ (stkQ [((1 : Nat), (1 : ℚ) / 10, (1 : ℚ) / 10),
      ((2 : Nat), -((1 : ℚ) / 10), (1 : ℚ) / 5)]) ≠ 0 := by
    norm_num [varQ, meanQ, stkQ]
  exact ⟨hvol,
    (c5_sharpe ((1 : Nat), (1 : ℚ) / 10, (1 : ℚ) / 2)
      [((2 : Nat), (1 : ℚ) / 10, (1 : ℚ) / 4)]).1 hvol,
    hvarne,
    (c5_sharpe ((1 : Nat), (1 : ℚ) / 10, (1 : ℚ) / 10)
      [((2 : Nat), -((1 : ℚ) / 10), (1 : ℚ) / 5)]).2.2 (by decide) hvarne⟩

/-- Witness for C6, with the particular instance of the claim: security
    dates 1, 2, 3 joined with benchmark dates 2, 3, 4 cover exactly the
    dates 2 and 3. -/
theorem c6_align_witness :
    List.Chain' (fun a b => a < b)
      (datesOf [((1 : Nat), FV.fin (0 : ℚ)), (2, FV.fin 0), (3, FV.fin 0)]) ∧
    (∀ p ∈ [((1 : Nat), FV.fin (0 : ℚ)), (2, FV.fin 0), (3, FV.fin 0)],
      (p.2).isNan = false) ∧
    (∀ p ∈ [((2 : Nat), FV.fin (0 : ℚ)), (3, FV.fin 0), (4, FV.fin 0)],
      (p.2).isNan = false) ∧
    datesOf (innerJoin [((1 : Nat), FV.fin (0 : ℚ)), (2, FV.fin 0), (3, FV.fin 0)]
      [((2 : Nat), FV.fin (0 : ℚ)), (3, FV.fin 0), (4, FV.fin 0)]) = [2, 3] ∧
    ((∀ d : Nat, d ∈ datesOf (innerJoin
        [((1 : Nat), FV.fin (0 : ℚ)), (2, FV.fin 0), (3, FV.fin 0)]
        [((2 : Nat), FV.fin (0 : ℚ)), (3, FV.fin 0), (4, FV.fin 0)]) ↔
      d ∈ datesOf [((1 : Nat), FV.fin (0 : ℚ)), (2, FV.fin 0), (3, FV.fin 0)] ∧
      d ∈ datesOf [((2 : Nat), FV.fin (0 : ℚ)), (3, FV.fin 0), (4, FV.fin 0)]) ∧
    List.Chain' (fun a b => a < b) (datesOf (innerJoin
      [((1 : Nat), FV.fin (0 : ℚ)), (2, FV.fin 0), (3, FV.fin 0)]
      [((2 : Nat), FV.fin (0 : ℚ)), (3, FV.fin 0), (4, FV.fin 0)])) ∧
    (∀ r ∈ innerJoin [((1 : Nat), FV.fin (0 : ℚ)), (2, FV.fin 0), (3, FV.fin 0)]
        [((2 : Nat), FV.fin (0 : ℚ)), (3, FV.fin 0), (4, FV.fin 0)],
      (r.1, r.2.1) ∈ [((1 : Nat), FV.fin (0 : ℚ)), (2, FV.fin 0), (3, FV.fin 0)] ∧
      (r.1, r.2.2) ∈ [((2 : Nat), FV.fin (0 : ℚ)), (3, FV.fin 0), (4, FV.fin 0)])) :=
  ⟨by norm_num [datesOf, List.chain'_cons], by decide, by decide, by decide,
    c6_align _ _ (by norm_num [datesOf, List.chain'_cons]) (by decide)
      (by decide)⟩

/-- Witness for C7: a 3-bar series of nonzero closes yields exactly 2
    returns. -/
theorem c7_returns_witness :
    List.Chain' (fun p q : Nat × ℚ => ¬(p.2 = 0 ∧ q.2 = 0))
      [((1 : Nat), (100 : ℚ)), (2, 110), (3, 55)] ∧
    2 ≤ ([((1 : Nat), (100 : ℚ)), (2, 110), (3, 55)]).length ∧
    (pct_change_dropna [((1 : Nat), (100 : ℚ)), (2, 110), (3, 55)]).length =
      ([((1 : Nat), (100 : ℚ)), (2, 110), (3, 55)]).length - 1 :=
  ⟨by norm_num [List.chain'_cons], by decide,
    (c7_returns [((1 : Nat), (100 : ℚ)), (2, 110), (3, 55)]).1
      (by norm_num [List.chain'_cons]) (by decide)⟩

theorem pctW_stock :
    pct_change_dropna [((1 : Nat), (100 : ℚ)), (2, 110), (3, 99)] =
      [(2, FV.fin (1 / 10)), (3, FV.fin (-(1 / 10)))] := by
  norm_num [pct_change_dropna, pctList, pctVal, FV.isNan]

theorem pctW_market :
    pct_change_dropna [((1 : Nat), (50 : ℚ)), (2, 55), (3, 66)] =
      [(2, FV.fin (1 / 10)), (3, FV.fin (1 / 5))] := by
  norm_num [pct_change_dropna, pctList, pctVal, FV.isNan]

theorem joinW :
    innerJoin (pct_change_dropna [((1 : Nat), (100 : ℚ)), (2, 110), (3, 99)])
      (pct_change_dropna [((1 : Nat), (50 : ℚ)), (2, 55), (3, 66)]) =
      [(2, FV.fin (1 / 10), FV.fin (1 / 10)),
       (3, FV.fin (-(1 / 10)), FV.fin (1 / 5))] := by
  rw [pctW_stock, pctW_market]
  simp [innerJoin, lookupDate, FV.isNan]

theorem varW : fvVar [FV.fin ((1 : ℚ) / 10), FV.fin (-((1 : ℚ) / 10))] =
    FV.fin (1 / 50) := by
  norm_num [fvVar, fvSum, fvDiv, fvMul, fvSub, fvAdd, fvNeg, FV.isNan,
    List.filter]

/-- Witness for C8: a pipeline run with two aligned returns 1/10 and -1/10
    has sample variance 1/50, volatility sqrt(1/50) * sqrt(252) * 100, and
    that volatility is nonnegative. -/
theorem c8_vol_witness :
    fvVar (stockCol (innerJoin
      (pct_change_dropna [((1 : Nat), (100 : ℚ)), (2, 110), (3, 99)])
      (pct_change_dropna [((1 : Nat), (50 : ℚ)), (2, 55), (3, 66)]))) =
      FV.fin (1 / 50) ∧
    volatilityOf (innerJoin
      (pct_change_dropna [((1 : Nat), (100 : ℚ)), (2, 110), (3, 99)])
      (pct_change_dropna [((1 : Nat), (50 : ℚ)), (2, 55), (3, 66)])) =
      FV.fin (Real.sqrt (((1 : ℚ) / 50 : ℚ) : ℝ) * Real.sqrt 252 * 100) ∧
    (0 : ℝ) ≤ Real.sqrt (((1 : ℚ) / 50 : ℚ) : ℝ) * Real.sqrt 252 * 100 ∧
    fvNonneg (volatilityOf (innerJoin
      (pct_change_dropna [((1 : Nat), (100 : ℚ)), (2, 110), (3, 99)])
      (pct_change_dropna [((1 : Nat), (50 : ℚ)), (2, 55), (3, 66)]))) := by
  have hv : fvVar (stockCol (innerJoin
      (pct_change_dropna [((1 : Nat), (100 : ℚ)), (2, 110), (3, 99)])
      (pct_change_dropna [((1 : Nat), (50 : ℚ)), (2, 55), (3, 66)]))) =
      FV.fin (1 / 50) := by
    rw [joinW]
    exact varW
  have hmain := (c8_vol ((1 : Nat), (100 : ℚ)) ((1 : Nat), (50 : ℚ))
    [(2, 110), (3, 99)] [(2, 55), (3, 66)]).2.2 (1 / 50) hv
  refine ⟨hv, hmain.1, hmain.2, ?_⟩
  refine (c8_vol ((1 : Nat), (100 : ℚ)) ((1 : Nat), (50 : ℚ))
    [(2, 110), (3, 99)] [(2, 55), (3, 66)]).2.1 ?_
  rw [hmain.1]
  simp

/-- Witness for C9: the raw record whose content is the empty dict yields
    the item with all three fallbacks. -/
theorem c9_fallbacks_witness :
    (jLookup "provider" ([] : List (String × JVal))).getD (JVal.obj []) =
      JVal.obj [] ∧
    (∃ t li pu,
      normalizeNews (JVal.obj [("content",
        JVal.obj ([] : List (String × JVal)))]) = Except.ok ⟨t, li, pu⟩ ∧
      t = (jLookup "title" ([] : List (String × JVal))).getD
        (JVal.str "No Title") ∧
      (jLookup "title" ([] : List (String × JVal)) = none →
        t = JVal.str "No Title") ∧
      (truthy (urlDataOf ([] : List (String × JVal))) = false →
        li = JVal.str "#") ∧
      (∀ ufs, urlDataOf ([] : List (String × JVal)) = JVal.obj ufs →
        truthy (urlDataOf ([] : List (String × JVal))) = true →
        li = (jLookup "url" ufs).getD (JVal.str "#")) ∧
      (truthy (ctuOf ([] : List (String × JVal))) = true →
        urlDataOf ([] : List (String × JVal)) =
          ctuOf ([] : List (String × JVal))) ∧
      (truthy (ctuOf ([] : List (String × JVal))) = false →
        urlDataOf ([] : List (String × JVal)) =
          canuOf ([] : List (String × JVal))) ∧
      pu = (jLookup "displayName" ([] : List (String × JVal))).getD
        (JVal.str "Unknown") ∧
      (jLookup "displayName" ([] : List (String × JVal)) = none →
        pu = JVal.str "Unknown")) :=
  ⟨rfl, c9_fallbacks [] [] rfl
    (fun h => by simp [urlDataOf, ctuOf, canuOf, jLookup, truthy] at h)⟩

end ProjectAlpaca
